import Mathlib

/-!
Verification of the streaming speech pipeline (merging queues, transcription
window split, translation stages, paragraph detector, engine supervisor)
against its natural-language specification.  Each definition is a shallow
embedding of a source function; the file header of each section names it.
-/

set_option maxHeartbeats 1000000

namespace Whispering

/-! ## Pair and the merging queues

Sources: `src/src/whispering/core/utils.py` (`Pair`, `MergingQueue`),
`src/cmque.py` (`Queue`, `DataDeque`, `PairDeque`), `src/que.py`
(`PairQueue.get`).  A queue state is the list of slots, head first; the
producer appends at the end (the deque tail), the consumer pops the head. -/

/-- `Pair` from `utils.py`: a confirmed prefix and a draft suffix. -/
structure Pair where
  cnfm : String
  drft : String
deriving DecidableEq, Repr

/-- `Pair.merge` from `utils.py` (also the merge law of `que.py`
`PairQueue.get`): `self.cnfm += other.cnfm; self.drft = other.drft`. -/
def Pair.merge (a b : Pair) : Pair :=
  { cnfm := a.cnfm ++ b.cnfm, drft := b.drft }

/-- The tail update performed by `cmque.py` `PairDeque.append` on a
non-sentinel tail `a` and an incoming item `b` (pairs stored as
`[confirmed, draft]` lists): `self[-1][0] = item[0]` replaces the confirmed
field and `self[-1][1] += item[1]` concatenates the draft fields. -/
def pairDequeMerge (a b : Pair) : Pair :=
  { cnfm := b.cnfm, drft := a.drft ++ b.drft }

/-- The merge law of `cmque.py` `DataDeque.append` and `utils.py`
`Data.merge`: byte-wise concatenation of audio frames. -/
def dataMerge (a b : List Nat) : List Nat := a ++ b

/-- `put` of the merging queues (`cmque.py` `Queue.put` dispatching to the
deque `append` override, and `utils.py` `MergingQueue.put`): a sentinel is
appended as its own slot; a non-sentinel item merges into a non-sentinel
tail and is appended otherwise.  `m` is the item type's merge law. -/
def mqPut (m : α → α → α) (dq : List (Option α)) (x : Option α) :
    List (Option α) :=
  match x with
  | none => dq ++ [none]
  | some v =>
    match dq.getLast? with
    | some (some t) => dq.dropLast ++ [some (m t v)]
    | _ => dq ++ [some v]

/-- One client operation on a merging queue: a producer `put` or a
consumer `get`. -/
inductive MQOp (α : Type) where
  | put : Option α → MQOp α
  | get : MQOp α

/-- State transition of the queue under one operation.  The state is
`(deque, output)` where `output` lists the items returned by `get` so far.
A `get` on the empty deque blocks in the source; in this sequential trace
model it is a no-op (the operation never completes). -/
def mqStep (m : α → α → α) (st : List (Option α) × List (Option α))
    (op : MQOp α) : List (Option α) × List (Option α) :=
  match op with
  | .put x => (mqPut m st.1 x, st.2)
  | .get =>
    match st.1 with
    | [] => st
    | h :: t => (t, st.2 ++ [h])

/-- Run a list of operations from a given state. -/
def mqRun (m : α → α → α) (st : List (Option α) × List (Option α)) :
    List (MQOp α) → List (Option α) × List (Option α)
  | [] => st
  | op :: rest => mqRun m (mqStep m st op) rest

/-- The sequence of arguments of the `put` operations of a trace. -/
def putsOf : List (MQOp α) → List (Option α)
  | [] => []
  | .put x :: rest => x :: putsOf rest
  | .get :: rest => putsOf rest

/-- Normal form of a slot sequence: every maximal run of adjacent
non-sentinel items is collapsed (right to left) into its merge under `m`;
sentinels are kept as their own elements. -/
def norm (m : α → α → α) : List (Option α) → List (Option α)
  | [] => []
  | none :: rest => none :: norm m rest
  | some a :: rest =>
    match norm m rest with
    | some b :: r => some (m a b) :: r
    | r => some a :: r

/-! ## C1: the Pair merge rule at the queue tail -/

/-- C1: putting the non-sentinel pairs `("A.", "How")` then `(" B.", " are")`
consecutively into a `cmque.py` `Queue(PairDeque())` while the first is
still the tail leaves the tail `(" B.", "How are")`: the confirmed field is
replaced by the newest item's confirmed field and the drafts are
concatenated — not the claimed `("A. B.", " are")` with confirmed fields
concatenated and the draft replaced (the rule that `utils.py` `Pair.merge`
and `que.py` `PairQueue.get` implement).  The first put's confirmed text
`"A."` is lost. -/
theorem c1_cmque_pairDeque_bug :
    mqPut pairDequeMerge (mqPut pairDequeMerge [] (some ⟨"A.", "How"⟩))
        (some ⟨" B.", " are"⟩)
      = [some ⟨" B.", "How are"⟩]
    ∧ (Pair.mk " B." "How are") ≠ (Pair.mk "A. B." " are")
    ∧ Pair.merge ⟨"A.", "How"⟩ ⟨" B.", " are"⟩ = ⟨"A. B.", " are"⟩ := by
  refine ⟨rfl, ?_, rfl⟩
  decide

/-! ## C4: the get sequence refines the put sequence -/

/-- Collapsing two adjacent non-sentinel slots into their merge does not
change the normal form, anywhere in the slot sequence, provided the merge
law is associative. -/
theorem norm_merge_mid (m : α → α → α)
    (assoc : ∀ a b c, m (m a b) c = m a (m b c)) :
    ∀ (l P : List (Option α)) (a b : α),
    norm m (l ++ some a :: some b :: P) = norm m (l ++ some (m a b) :: P) := by
  intro l
  induction l with
  | nil =>
    intro P a b
    simp only [List.nil_append, norm]
    cases h : norm m P with
    | nil => simp [norm]
    | cons hd tl =>
      cases hd with
      | none => simp [norm]
      | some d => simp [norm, assoc]
  | cons c l ih =>
    intro P a b
    cases c with
    | none => simp only [List.cons_append, norm, List.append_eq, ih]
    | some c0 => simp only [List.cons_append, norm, List.append_eq, ih]

/-- Invariant of the merging queue: at every point of a client trace, the
normal form of the items already returned by `get` followed by the items
still queued equals the normal form of the items put so far. -/
theorem mqRun_norm (m : α → α → α)
    (assoc : ∀ a b c, m (m a b) c = m a (m b c)) :
    ∀ (ops : List (MQOp α)) (st : List (Option α) × List (Option α)),
    norm m ((mqRun m st ops).2 ++ (mqRun m st ops).1)
      = norm m (st.2 ++ (st.1 ++ putsOf ops)) := by
  intro ops
  induction ops with
  | nil => intro st; simp [mqRun, putsOf]
  | cons op rest ih =>
    intro st
    rw [mqRun, ih]
    cases op with
    | get =>
      cases h1 : st.1 with
      | nil => simp [mqStep, h1, putsOf]
      | cons h t => simp [mqStep, h1, putsOf]
    | put x =>
      cases x with
      | none => simp [mqStep, mqPut, putsOf]
      | some v =>
        show norm m (st.2 ++ (mqPut m st.1 (some v) ++ putsOf rest)) = _
        cases hlast : st.1.getLast? with
        | none => simp [mqPut, hlast, putsOf]
        | some o =>
          cases o with
          | none => simp [mqPut, hlast, putsOf]
          | some t =>
            have hdq : st.1.dropLast ++ [some t] = st.1 :=
              List.dropLast_append_getLast? _ hlast
            simp only [mqPut, hlast, putsOf]
            have e1 :
                st.2 ++ (st.1.dropLast ++ [some (m t v)] ++ putsOf rest)
                  = (st.2 ++ st.1.dropLast)
                      ++ (some (m t v) :: putsOf rest) := by
              simp
            have e2 :
                st.2 ++ (st.1 ++ some v :: putsOf rest)
                  = (st.2 ++ st.1.dropLast)
                      ++ (some t :: some v :: putsOf rest) := by
              conv_lhs => rw [← hdq]
              simp
            rw [e1, e2, norm_merge_mid m assoc]

/-- The merge law of `utils.py` `Pair.merge` is associative. -/
theorem pairMerge_assoc (a b c : Pair) :
    Pair.merge (Pair.merge a b) c = Pair.merge a (Pair.merge b c) := by
  simp [Pair.merge, String.append_assoc]

/-- C4: for every client trace of a merging queue that ends with the queue
drained, the sequence of items returned by `get` is a refinement of the put
sequence: its normal form (adjacent non-sentinel items collapsed under the
item type's merge law) equals the normal form of the put sequence, so
nothing is dropped or reordered, merges only combine adjacent items, and
every sentinel appears as its own element in its put position. -/
theorem c4_merging_queue_refinement (m : α → α → α)
    (assoc : ∀ a b c, m (m a b) c = m a (m b c)) (ops : List (MQOp α))
    (hdrained : (mqRun m ([], []) ops).1 = []) :
    norm m (mqRun m ([], []) ops).2 = norm m (putsOf ops) := by
  have h := mqRun_norm m assoc ops ([], [])
  rw [hdrained] at h
  simpa using h

/-- C4 witness: a concrete trace with two merging puts, a sentinel and two
gets, instantiated with the Pair merge law. -/
theorem c4_witness :
    norm Pair.merge
        (mqRun Pair.merge ([], [])
          [.put (some ⟨"A.", "How"⟩), .put (some ⟨" B.", " are"⟩), .get,
           .put none, .get]).2
      = norm Pair.merge
          (putsOf
            [MQOp.put (some (Pair.mk "A." "How")),
             .put (some ⟨" B.", " are"⟩), .get, .put none, .get]) :=
  c4_merging_queue_refinement Pair.merge pairMerge_assoc _ rfl

/-! ## C2: confirmed/draft partition of the oracle's segments

Sources: `src/core.py` `ts_proc` (the boundary loop, lines 369-376) and
`src/src/whispering/services/transcription/whisper_impl.py`
`WhisperTranscriptionService.update` (lines 72-83).  Time is in rational
seconds; the window length is a sample count. -/

/-- A segment returned by the transcription oracle: window-relative start
and end times in seconds and the transcribed text. -/
structure Segment where
  start : ℚ
  stop : ℚ
  text : String
deriving DecidableEq, Repr

/-- The boundary loop of `ts_proc` / `update`: scan the segments in order
counting those whose end is strictly below the boundary `b`; at the first
segment whose end reaches `b`, pull the boundary back to that segment's
start when the segment starts strictly before `b`, and stop. Returns the
split index and the (possibly pulled back) boundary. -/
def scanSplit (b : ℚ) : List Segment → ℕ × ℚ
  | [] => (0, b)
  | s :: rest =>
    if b ≤ s.stop then
      (0, if s.start < b then s.start else b)
    else
      let r := scanSplit b rest
      (r.1 + 1, r.2)

/-- Concatenation of the texts of a list of segments (`"".join`). -/
def concatTexts (l : List Segment) : String :=
  String.join (l.map Segment.text)

/-- One transcription partition step: boundary initialised to
`max(samples/rate − patience, 0)`, segments split by the boundary loop,
confirmed and draft texts concatenated from the two halves.  Returns
(confirmed, draft, trim boundary in seconds). -/
def tsSplit (rate : ℕ) (samples : ℕ) (patience : ℚ)
    (segs : List Segment) : String × String × ℚ :=
  let b0 := max ((samples : ℚ) / (rate : ℚ) - patience) 0
  let r := scanSplit b0 segs
  (concatTexts (segs.take r.1), concatTexts (segs.drop r.1), r.2)

/-- The boundary loop in terms of the first segment whose end reaches the
boundary: the split index is the index of that segment and the boundary is
pulled back to its start exactly when that start is strictly below `b`. -/
theorem scanSplit_eq (b : ℚ) (segs : List Segment) :
    scanSplit b segs
      = (segs.findIdx fun s => b ≤ s.stop,
          match segs.find? fun s => b ≤ s.stop with
          | some s => if s.start < b then s.start else b
          | none => b) := by
  induction segs with
  | nil => simp [scanSplit, List.findIdx_nil]
  | cons s rest ih =>
    by_cases h : b ≤ s.stop
    · simp [scanSplit, h, List.findIdx_cons, List.find?_cons]
    · simp [scanSplit, h, List.findIdx_cons, List.find?_cons, ih]

/-- C2: for every window length, patience and segment list, the partition
computed by the transcription stage confirms exactly the segments strictly
before the first segment whose end reaches the initial boundary
`max(samples/rate − patience, 0)`, drafts the rest, and pulls the trim
boundary back to that segment's start exactly when that start is strictly
below the initial boundary — so a segment starting exactly at the boundary
stays in the draft and causes no pull-back. -/
theorem c2_partition (rate : ℕ) (samples : ℕ) (patience : ℚ)
    (segs : List Segment) :
    tsSplit rate samples patience segs
      = (let b0 := max ((samples : ℚ) / (rate : ℚ) - patience) 0
         let i := segs.findIdx fun s => b0 ≤ s.stop
         (concatTexts (segs.take i), concatTexts (segs.drop i),
           match segs.find? fun s => b0 ≤ s.stop with
           | some s => if s.start < b0 then s.start else b0
           | none => b0)) := by
  simp only [tsSplit, scanSplit_eq]

/-! ## C5: cumulative offset versus samples trimmed from the window

Source: `src/core.py` `ts_proc` lines 388-392 (equally
`src/src/core_parts/processing.py` lines 149-152): per frame the stage
computes the trim boundary in seconds, adds it to `cumulative_offset`, and
deletes `int(boundary * 16000)` samples (in bytes, two per sample) from the
front of the window.  The state tracks the window sample count, the offset
in seconds and the total samples deleted.  `int()` truncation on the
nonnegative boundary is the floor; `del` removes at most the window. -/

/-- Private state of the transcription stage loop, in samples/seconds. -/
structure TsState where
  window : ℕ
  offset : ℚ
  deleted : ℕ
deriving DecidableEq, Repr

/-- One iteration of the `ts_proc` loop on a frame of `input.1` samples for
which the oracle returned the segments `input.2`. -/
def tsStep (patience : ℚ) (st : TsState) (input : ℕ × List Segment) :
    TsState :=
  let n := st.window + input.1
  let b0 := max ((n : ℚ) / 16000 - patience) 0
  let b := (scanSplit b0 input.2).2
  let k := min (Int.toNat ⌊b * 16000⌋) n
  { window := n - k, offset := st.offset + b, deleted := st.deleted + k }

/-- The `ts_proc` loop over a whole trace of (frame, oracle segments). -/
def tsRun (patience : ℚ) (trace : List (ℕ × List Segment)) : TsState :=
  trace.foldl (tsStep patience) ⟨0, 0, 0⟩

/-- The trim boundary produced by the boundary loop stays within
`[0, b0]` when the initial boundary and all segment starts are
nonnegative. -/
theorem scanSplit_bounds (b0 : ℚ) (segs : List Segment) (h0 : 0 ≤ b0)
    (hs : ∀ s ∈ segs, 0 ≤ s.start) :
    0 ≤ (scanSplit b0 segs).2 ∧ (scanSplit b0 segs).2 ≤ b0 := by
  induction segs with
  | nil => exact ⟨by simpa [scanSplit] using h0, by simp [scanSplit]⟩
  | cons s rest ih =>
    have hstart : 0 ≤ s.start := hs s (by simp)
    have hrest : ∀ t ∈ rest, 0 ≤ t.start := fun t ht => hs t (by simp [ht])
    by_cases h : b0 ≤ s.stop
    · by_cases h2 : s.start < b0
      · have e : (scanSplit b0 (s :: rest)).2 = s.start := by
          simp [scanSplit, h, h2]
        rw [e]
        exact ⟨hstart, le_of_lt h2⟩
      · have e : (scanSplit b0 (s :: rest)).2 = b0 := by
          simp [scanSplit, h, h2]
        rw [e]
        exact ⟨h0, le_refl b0⟩
    · have e : (scanSplit b0 (s :: rest)).2 = (scanSplit b0 rest).2 := by
        simp [scanSplit, h]
      rw [e]
      exact ih hrest

/-- Offset drift of a state: cumulative offset in samples minus the
samples actually deleted. -/
def tsDrift (st : TsState) : ℚ := st.offset * 16000 - (st.deleted : ℚ)

/-- Per-step accounting of `ts_proc`: the offset never decreases and each
step adds strictly less than one sample of drift and never reduces it. -/
theorem tsStep_accounting (patience : ℚ) (hp : 0 ≤ patience)
    (st : TsState) (input : ℕ × List Segment)
    (hs : ∀ s ∈ input.2, 0 ≤ s.start) :
    st.offset ≤ (tsStep patience st input).offset
    ∧ tsDrift st ≤ tsDrift (tsStep patience st input)
    ∧ tsDrift (tsStep patience st input) < tsDrift st + 1 := by
  set n := st.window + input.1 with hn
  set b0 := max ((n : ℚ) / 16000 - patience) 0 with hb0
  have h0 : (0 : ℚ) ≤ b0 := le_max_right _ _
  obtain ⟨hbl, hbu⟩ := scanSplit_bounds b0 input.2 h0 hs
  set b := (scanSplit b0 input.2).2 with hb
  have hble : b ≤ (n : ℚ) / 16000 := by
    refine hbu.trans (max_le ?_ ?_)
    · linarith
    · positivity
  have hx0 : (0 : ℚ) ≤ b * 16000 := by positivity
  have hfl0 : (0 : ℤ) ≤ ⌊b * 16000⌋ := Int.floor_nonneg.mpr hx0
  have hxn : b * 16000 ≤ (n : ℚ) := by
    have h16 : (0 : ℚ) < 16000 := by norm_num
    calc b * 16000 ≤ ((n : ℚ) / 16000) * 16000 := by
          exact mul_le_mul_of_nonneg_right hble (le_of_lt h16)
      _ = (n : ℚ) := by field_simp
  have hfln : ⌊b * 16000⌋ ≤ (n : ℤ) := by
    have := Int.floor_le_floor hxn
    simpa using this
  have hmin : min (Int.toNat ⌊b * 16000⌋) n = Int.toNat ⌊b * 16000⌋ := by
    refine min_eq_left ?_
    omega
  have hkq : ((min (Int.toNat ⌊b * 16000⌋) n : ℕ) : ℚ) = (⌊b * 16000⌋ : ℚ) := by
    rw [hmin]
    have : ((Int.toNat ⌊b * 16000⌋ : ℕ) : ℤ) = ⌊b * 16000⌋ :=
      Int.toNat_of_nonneg hfl0
    exact_mod_cast congrArg (fun z : ℤ => (z : ℚ)) this
  have hfle : (⌊b * 16000⌋ : ℚ) ≤ b * 16000 := Int.floor_le _
  have hflt : b * 16000 < (⌊b * 16000⌋ : ℚ) + 1 := Int.lt_floor_add_one _
  set k := min (Int.toNat ⌊b * 16000⌋) n with hk
  have hstep : tsStep patience st input
      = { window := n - k, offset := st.offset + b, deleted := st.deleted + k } :=
    rfl
  have hexp : (st.offset + b) * 16000 = st.offset * 16000 + b * 16000 := by
    ring
  refine ⟨?_, ?_, ?_⟩
  · rw [hstep]
    show st.offset ≤ st.offset + b
    linarith
  · rw [hstep]
    simp only [tsDrift, Nat.cast_add, hkq, hexp]
    linarith
  · rw [hstep]
    simp only [tsDrift, Nat.cast_add, hkq, hexp]
    linarith

/-- Accounting over a whole run from any starting state: the offset never
decreases and the drift grows by less than one sample per frame. -/
theorem tsFold_accounting (patience : ℚ) (hp : 0 ≤ patience) :
    ∀ (trace : List (ℕ × List Segment)) (st : TsState),
    (∀ p ∈ trace, ∀ s ∈ p.2, 0 ≤ s.start) →
    st.offset ≤ (trace.foldl (tsStep patience) st).offset
    ∧ tsDrift st ≤ tsDrift (trace.foldl (tsStep patience) st)
    ∧ tsDrift (trace.foldl (tsStep patience) st)
        ≤ tsDrift st + trace.length := by
  intro trace
  induction trace with
  | nil => intro st _; simp
  | cons p rest ih =>
    intro st htr
    have hp1 : ∀ s ∈ p.2, 0 ≤ s.start := fun s hsx => htr p (by simp) s hsx
    have hrest : ∀ q ∈ rest, ∀ s ∈ q.2, 0 ≤ s.start :=
      fun q hq s hsx => htr q (by simp [hq]) s hsx
    obtain ⟨m1, d1, d2⟩ := tsStep_accounting patience hp st p hp1
    obtain ⟨m2, d3, d4⟩ := ih (tsStep patience st p) hrest
    refine ⟨le_trans m1 m2, le_trans d1 d3, ?_⟩
    simp only [List.foldl_cons, List.length_cons]
    push_cast
    calc tsDrift ((rest.foldl (tsStep patience) (tsStep patience st p)))
        ≤ tsDrift (tsStep patience st p) + rest.length := d4
      _ ≤ (tsDrift st + 1) + rest.length := by linarith
      _ = tsDrift st + (rest.length + 1) := by ring

/-- C5 counterexample: with patience 0, three one-second frames whose
oracle output is a single segment starting half a sample into the window
pull the boundary back to half a sample each time; the stage adds half a
sample to the offset per frame but `int()` trims zero samples, so after
three frames the cumulative offset exceeds the trimmed total by 1.5
samples — more than the one sample the claim allows for an arbitrary
number of frames. -/
theorem c5_counterexample :
    tsDrift (tsRun 0
      [(16000, [⟨1/32000, 2, "a"⟩]),
       (16000, [⟨1/32000, 3, "b"⟩]),
       (16000, [⟨1/32000, 4, "c"⟩])]) = 3/2
    ∧ ¬ |tsDrift (tsRun 0
          [(16000, [⟨1/32000, 2, "a"⟩]),
           (16000, [⟨1/32000, 3, "b"⟩]),
           (16000, [⟨1/32000, 4, "c"⟩])])| ≤ 1 := by
  have h1 : tsStep 0 ⟨0, 0, 0⟩ (16000, [⟨1/32000, 2, "a"⟩])
      = ⟨16000, 1/32000, 0⟩ := by
    simp only [tsStep, scanSplit]
    norm_num
  have h2 : tsStep 0 ⟨16000, 1/32000, 0⟩ (16000, [⟨1/32000, 3, "b"⟩])
      = ⟨32000, 2/32000, 0⟩ := by
    simp only [tsStep, scanSplit]
    norm_num
  have h3 : tsStep 0 ⟨32000, 2/32000, 0⟩ (16000, [⟨1/32000, 4, "c"⟩])
      = ⟨48000, 3/32000, 0⟩ := by
    simp only [tsStep, scanSplit]
    norm_num
  have hrun : tsRun 0
      [(16000, [⟨1/32000, 2, "a"⟩]),
       (16000, [⟨1/32000, 3, "b"⟩]),
       (16000, [⟨1/32000, 4, "c"⟩])] = ⟨48000, 3/32000, 0⟩ := by
    simp only [tsRun, List.foldl_cons, List.foldl_nil, h1, h2, h3]
  rw [hrun]
  constructor
  · simp only [tsDrift]
    norm_num
  · simp only [tsDrift]
    intro hle
    rw [abs_le] at hle
    have := hle.2
    norm_num at this

/-- C5 amended: the cumulative offset is monotonically non-decreasing, and
the total samples deleted from the window track `offset · sample_rate` to
within one sample per processed frame — each step adds a drift in `[0, 1)`
samples, so after `k` frames the total drift lies in `[0, k]` — but not to
within one sample globally. -/
theorem c5_offset_drift (patience : ℚ) (hp : 0 ≤ patience)
    (trace : List (ℕ × List Segment))
    (hsegs : ∀ p ∈ trace, ∀ s ∈ p.2, 0 ≤ s.start) :
    (∀ pre suf, trace = pre ++ suf →
        (tsRun patience pre).offset ≤ (tsRun patience trace).offset)
    ∧ 0 ≤ tsDrift (tsRun patience trace)
    ∧ tsDrift (tsRun patience trace) ≤ trace.length
    ∧ (∀ st input, (∀ s ∈ input.2, 0 ≤ s.start) →
        tsDrift st ≤ tsDrift (tsStep patience st input)
        ∧ tsDrift (tsStep patience st input) < tsDrift st + 1) := by
  have hinit : tsDrift ⟨0, 0, 0⟩ = 0 := by simp [tsDrift]
  obtain ⟨hm, hd0, hd1⟩ := tsFold_accounting patience hp trace ⟨0, 0, 0⟩ hsegs
  refine ⟨?_, ?_, ?_, ?_⟩
  · intro pre suf heq
    have hsuf : ∀ p ∈ suf, ∀ s ∈ p.2, 0 ≤ s.start :=
      fun p hq => hsegs p (by simp [heq, hq])
    have : tsRun patience trace
        = suf.foldl (tsStep patience) (tsRun patience pre) := by
      simp [tsRun, heq, List.foldl_append]
    rw [this]
    exact (tsFold_accounting patience hp suf (tsRun patience pre) hsuf).1
  · calc (0 : ℚ) = tsDrift ⟨0, 0, 0⟩ := hinit.symm
      _ ≤ _ := hd0
  · calc tsDrift (tsRun patience trace)
        ≤ tsDrift ⟨0, 0, 0⟩ + trace.length := hd1
      _ = trace.length := by rw [hinit]; ring
  · intro st input hin
    obtain ⟨_, d1, d2⟩ := tsStep_accounting patience hp st input hin
    exact ⟨d1, d2⟩

/-- C5 witness: the amended drift bounds at a concrete two-frame trace. -/
theorem c5_witness :
    0 ≤ tsDrift (tsRun 1 [(16000, [⟨0, 1, "a"⟩]), (8000, [])])
    ∧ tsDrift (tsRun 1 [(16000, [⟨0, 1, "a"⟩]), (8000, [])])
        ≤ ([(16000, [⟨0, 1, "a"⟩]), ((8000 : ℕ), ([] : List Segment))] :
            List (ℕ × List Segment)).length := by
  have h := c5_offset_drift 1 (by norm_num)
      [(16000, [⟨0, 1, "a"⟩]), (8000, [])]
      (by
        intro p hp s hs
        simp only [List.mem_cons, List.not_mem_nil] at hp
        rcases hp with h1 | h1 | h1
        · subst h1
          simp only [List.mem_singleton] at hs
          subst hs
          norm_num
        · subst h1
          simp at hs
        · exact absurd h1 (by simp))
  exact ⟨h.2.1, h.2.2.1⟩

/-! ## C3 and C7: the HTTP translation stage

Sources: `src/src/core_parts/processing.py` `tl_proc` lines 347-367 (the
Google-translate branch with the defensive reserve pop, the variant the
spec adopts) and `src/core.py` `translate` lines 318-326 /
`google_impl.py` `GoogleTranslationService.translate` (provider call with
its error handling). -/

/-- Concatenation of the target spans of a sentence list (`"".join`). -/
def joinTgts (l : List (String × String)) : String :=
  String.join (l.map Prod.snd)

/-- One `Pair` update of the HTTP translation stage (`tl_proc`, Google
branch): when confirmed text or the reserve is non-empty, translate
`reserve ++ confirmed`; with more than one sentence returned pop the last
into the reserve and join the rest, with exactly one use it whole and
clear the reserve, with none both are empty.  Then translate
`reserve ++ draft` afresh.  Returns the emitted pair and the new
reserve. -/
def tlUpdateHTTP (tr : String → List (String × String)) (rsrv : String)
    (p : Pair) : Pair × String :=
  let r :=
    if p.cnfm ≠ "" ∨ rsrv ≠ "" then
      let snt := tr (rsrv ++ p.cnfm)
      if 1 < snt.length then
        (joinTgts snt.dropLast, (snt.getLastD ("", "")).1)
      else if snt.length = 1 then
        ((snt.headD ("", "")).2, "")
      else ("", "")
    else ("", rsrv)
  let currSnt := tr (r.2 ++ p.drft)
  (⟨r.1, joinTgts currSnt⟩, r.2)

/-- C3: in HTTP translation mode, for every update whose confirmed text or
reserve is non-empty, the stage translates `reserve ++ confirmed`; when the
provider returns more than one (source, target) pair the last pair's
source span becomes the new reserve and the other pairs' target spans are
joined into the emitted confirmed target; when it returns exactly one pair
that pair's target is used whole and the reserve is cleared; when it
returns the empty list both are empty. -/
theorem c3_http_reserve (tr : String → List (String × String))
    (rsrv : String) (p : Pair) (h : p.cnfm ≠ "" ∨ rsrv ≠ "") :
    (∀ init lastp, tr (rsrv ++ p.cnfm) = init ++ [lastp] → init ≠ [] →
        (tlUpdateHTTP tr rsrv p).1.cnfm = joinTgts init
        ∧ (tlUpdateHTTP tr rsrv p).2 = lastp.1)
    ∧ (∀ single, tr (rsrv ++ p.cnfm) = [single] →
        (tlUpdateHTTP tr rsrv p).1.cnfm = single.2
        ∧ (tlUpdateHTTP tr rsrv p).2 = "")
    ∧ (tr (rsrv ++ p.cnfm) = [] →
        (tlUpdateHTTP tr rsrv p).1.cnfm = ""
        ∧ (tlUpdateHTTP tr rsrv p).2 = "") := by
  refine ⟨?_, ?_, ?_⟩
  · intro init lastp heq hne
    have hlen : 1 < (tr (rsrv ++ p.cnfm)).length := by
      rw [heq]
      simp only [List.length_append, List.length_singleton]
      have : 0 < init.length := List.length_pos.mpr hne
      omega
    have hpos : 0 < init.length := List.length_pos.mpr hne
    constructor
    · simp [tlUpdateHTTP, h, heq, hlen, hpos, List.dropLast_concat]
    · simp [tlUpdateHTTP, h, heq, hlen, hpos, List.getLastD_eq_getLast?,
        List.getLast?_concat]
  · intro single heq
    have hlen : ¬ 1 < (tr (rsrv ++ p.cnfm)).length := by
      rw [heq]; simp
    have hlen1 : (tr (rsrv ++ p.cnfm)).length = 1 := by
      rw [heq]; simp
    constructor
    · simp [tlUpdateHTTP, h, heq, hlen, hlen1]
    · simp [tlUpdateHTTP, h, heq, hlen, hlen1]
  · intro heq
    have hlen : ¬ 1 < (tr (rsrv ++ p.cnfm)).length := by
      rw [heq]; simp
    have hlen1 : ¬ (tr (rsrv ++ p.cnfm)).length = 1 := by
      rw [heq]; simp
    constructor
    · simp [tlUpdateHTTP, h, heq, hlen, hlen1]
    · simp [tlUpdateHTTP, h, heq, hlen, hlen1]

/-- C3 witness: a provider returning two sentences on the confirmed call,
at an update with non-empty confirmed text. -/
theorem c3_witness :
    (tlUpdateHTTP
        (fun t => if t = "Hello. How" then [("Hello.", "Hola."), ("How", "Como")]
          else []) "" ⟨"Hello. How", ""⟩).1.cnfm = joinTgts [("Hello.", "Hola.")]
    ∧ (tlUpdateHTTP
        (fun t => if t = "Hello. How" then [("Hello.", "Hola."), ("How", "Como")]
          else []) "" ⟨"Hello. How", ""⟩).2 = "How" :=
  (c3_http_reserve _ "" ⟨"Hello. How", ""⟩ (Or.inl (by decide))).1
    [("Hello.", "Hola.")] ("How", "Como") (by decide) (by decide)

/-- The error marker substituted by the translation call on provider
failure. -/
def unavailableMarker : String := "Translation service is unavailable."

/-- `translate` from `core.py` / `google_impl.py`: with no target language
a fixed message is returned; otherwise the provider outcome is returned
as-is on success, and on any raised provider error (timeout, connectivity,
parse) the whole `try` body is replaced by the single pair
`(text, error marker)`. -/
def translate (target : Option String)
    (prov : Except Unit (List (String × String))) (text : String) :
    List (String × String) :=
  match target with
  | none => [(text, "Target language is not specified.")]
  | some _ =>
    match prov with
    | .ok l => l
    | .error _ => [(text, unavailableMarker)]

/-- The HTTP translation stage loop over a list of updates, with a
possibly different provider outcome at each call (`trs i` is the
translation function used for both calls of update `i`). -/
def tlRunHTTP (trs : ℕ → String → List (String × String)) :
    ℕ → String → List Pair → List Pair
  | _, _, [] => []
  | i, rsrv, p :: rest =>
    let r := tlUpdateHTTP (trs i) rsrv p
    r.1 :: tlRunHTTP trs (i + 1) r.2 rest

/-- C7: when the provider raises, the translation call returns the single
pair (full input text, error marker); an update made with such a failing
provider emits a `Pair` whose confirmed and draft targets are both the
error marker and clears the reserve; and the stage loop produces exactly
one output per input — it continues past failing updates instead of
terminating. -/
theorem c7_provider_failure (tgt : String) (e : Unit) :
    (∀ text, translate (some tgt) (.error e) text = [(text, unavailableMarker)])
    ∧ (∀ rsrv p, p.cnfm ≠ "" ∨ rsrv ≠ "" →
        tlUpdateHTTP (translate (some tgt) (.error e)) rsrv p
          = (⟨unavailableMarker, unavailableMarker⟩, ""))
    ∧ (∀ trs i rsrv inputs,
        (tlRunHTTP trs i rsrv inputs).length = inputs.length) := by
  refine ⟨fun text => rfl, ?_, ?_⟩
  · intro rsrv p h
    have hj : String.join ["Translation service is unavailable."]
        = "Translation service is unavailable." := rfl
    simp [tlUpdateHTTP, h, translate, joinTgts, unavailableMarker, hj]
  · intro trs
    intro i rsrv inputs
    induction inputs generalizing i rsrv with
    | nil => simp [tlRunHTTP]
    | cons p rest ih => simp [tlRunHTTP, ih]

/-- C7 witness: a failing provider at a concrete non-empty update. -/
theorem c7_witness :
    translate (some "es") (.error ()) "Hi." = [("Hi.", unavailableMarker)]
    ∧ tlUpdateHTTP (translate (some "es") (.error ())) "" ⟨"Hi.", "there"⟩
        = (⟨unavailableMarker, unavailableMarker⟩, "") :=
  ⟨(c7_provider_failure "es" ()).1 "Hi.",
    (c7_provider_failure "es" ()).2.1 "" ⟨"Hi.", "there"⟩ (Or.inl (by decide))⟩

/-! ## C6: the LLM-mode accumulate/split logic

Source: `src/src/core_parts/processing.py` `tl_proc` lines 194-253 (and
`src/core.py` lines 412-434).  Text is modelled as `List Char`;
`"\n\n" in accumulated` is `containsSep`, `accumulated.split("\n\n")` is
`pySplit` (Python split: a leftmost, non-overlapping scan),
`"\n\n".join` is `joinSep`. -/

/-- Python `split("\n\n")` on a character list: scan left to right; each
(non-overlapping) occurrence of two newlines ends the current part. -/
def pySplit : List Char → List (List Char)
  | [] => [[]]
  | [c] => [[c]]
  | c :: d :: rest =>
    if c = '\n' ∧ d = '\n' then
      [] :: pySplit rest
    else
      match pySplit (d :: rest) with
      | [] => [[c]]
      | p :: ps => (c :: p) :: ps

/-- Python `"\n\n" in text`: some position starts two newlines. -/
def containsSep : List Char → Bool
  | c :: d :: rest =>
    (decide (c = '\n') && decide (d = '\n')) || containsSep (d :: rest)
  | _ => false

/-- Python `"\n\n".join(parts)`. -/
def joinSep : List (List Char) → List Char
  | [] => []
  | [p] => p
  | p :: ps => p ++ '\n' :: '\n' :: joinSep ps

/-- The split performed when processing fires (`tl_proc`): with a
paragraph break present, `parts = accumulated.split("\n\n")`,
`to_process = "\n\n".join(parts[:-1])` and `parts[-1]` stays accumulated;
without one the whole accumulation is shipped.  Returns
(to_process, new accumulated). -/
def aiSplit (acc : List Char) : List Char × List Char :=
  if containsSep acc = true then
    (joinSep (pySplit acc).dropLast, (pySplit acc).getLastD [])
  else (acc, [])

/-- The paragraph-break trigger conjunct of `should_process`:
`accumulated and (has_min_chars and has_paragraph_break)` with
`MIN_CHARS_TO_PROCESS = 150`. -/
def paragraphTrigger (acc : List Char) : Bool :=
  (!acc.isEmpty) && (decide (150 ≤ acc.length) && containsSep acc)

/-- The full `should_process` disjunction of `tl_proc`; the time, word,
silence and manual flags abstract the wall-clock and external state they
are computed from (`MAX_CHARS_TO_ACCUMULATE = 400`). -/
def shouldProcess (acc : List Char)
    (timeReached wordReached silenceReached manualReq : Bool) : Bool :=
  (!acc.isEmpty)
    && ((decide (150 ≤ acc.length) && containsSep acc)
        || decide (400 ≤ acc.length)
        || timeReached || wordReached || silenceReached || manualReq)

/-- Whether position `j` of `l` starts an occurrence of two newlines. -/
def sepAt (l : List Char) (j : ℕ) : Bool :=
  match l.drop j with
  | c :: d :: _ => decide (c = '\n') && decide (d = '\n')
  | _ => false

/-- Modelled from the spec words "split `accumulated` at the last
`"\n\n"`": cut at the greatest position at which two newlines occur,
dropping that occurrence.  Stated only to compare with the source's
`aiSplit`. -/
def lastSplit (l : List Char) : List Char × List Char :=
  match ((List.range l.length).filter (sepAt l)).getLast? with
  | some j => (l.take j, l.drop (j + 2))
  | none => (l, [])

/-- `pySplit` always returns at least one part. -/
theorem pySplit_ne_nil (l : List Char) : pySplit l ≠ [] := by
  induction l using pySplit.induct with
  | case1 => simp [pySplit]
  | case2 c => simp [pySplit]
  | case3 c d rest hcd ih => simp [pySplit, if_pos hcd]
  | case4 c d rest hcd heq ih => exact absurd heq ih
  | case5 c d rest hcd p ps heq ih => simp [pySplit, if_neg hcd, heq]

/-- Joining the parts of a split recovers the original text. -/
theorem joinSep_pySplit (l : List Char) : joinSep (pySplit l) = l := by
  induction l using pySplit.induct with
  | case1 => rfl
  | case2 c => rfl
  | case3 c d rest hcd ih =>
    simp only [pySplit, if_pos hcd]
    cases hx : pySplit rest with
    | nil => exact absurd hx (pySplit_ne_nil rest)
    | cons p ps =>
      rw [hx] at ih
      rcases hcd with ⟨h1, h2⟩
      subst h1; subst h2
      simp only [joinSep, List.nil_append]
      rw [ih]
  | case4 c d rest hcd heq ih => exact absurd heq (pySplit_ne_nil _)
  | case5 c d rest hcd p ps heq ih =>
    simp only [pySplit, if_neg hcd, heq]
    rw [heq] at ih
    cases ps with
    | nil =>
      simp only [joinSep] at ih ⊢
      rw [ih]
    | cons q qs =>
      simp only [joinSep] at ih ⊢
      rw [List.cons_append, ih]

/-- A text contains the separator exactly when its split has at least two
parts. -/
theorem containsSep_parts (l : List Char) :
    containsSep l = true ↔ 2 ≤ (pySplit l).length := by
  induction l using pySplit.induct with
  | case1 => simp [pySplit, containsSep]
  | case2 c => simp [pySplit, containsSep]
  | case3 c d rest hcd ih =>
    have h := pySplit_ne_nil rest
    have hpos : 0 < (pySplit rest).length := List.length_pos.mpr h
    rcases hcd with ⟨h1, h2⟩
    subst h1; subst h2
    have e : pySplit ('\n' :: '\n' :: rest) = [] :: pySplit rest := by
      simp [pySplit]
    constructor
    · intro _
      rw [e, List.length_cons]
      omega
    · intro _
      rfl
  | case4 c d rest hcd heq ih => exact absurd heq (pySplit_ne_nil _)
  | case5 c d rest hcd p ps heq ih =>
    rw [heq] at ih
    have e : pySplit (c :: d :: rest) = (c :: p) :: ps := by
      simp [pySplit, if_neg hcd, heq]
    have ecs : containsSep (c :: d :: rest)
        = ((decide (c = '\n') && decide (d = '\n'))
            || containsSep (d :: rest)) := rfl
    rw [e, ecs]
    simp only [List.length_cons] at ih ⊢
    constructor
    · intro hor
      have hor2 : (decide (c = '\n') && decide (d = '\n')) = true
          ∨ containsSep (d :: rest) = true := by
        simpa using hor
      rcases hor2 with hor2 | hor2
      · have : c = '\n' ∧ d = '\n' := by simpa using hor2
        exact absurd this hcd
      · have := ih.mp hor2
        omega
    · intro hlen
      have h2 : containsSep (d :: rest) = true := ih.mpr (by omega)
      simp [h2]

/-- The first part of a split of `d :: rest` is empty or starts with
`d`. -/
theorem pySplit_head (d : Char) (rest : List Char) (p : List Char)
    (ps : List (List Char)) (h : pySplit (d :: rest) = p :: ps) :
    p = [] ∨ ∃ t, p = d :: t := by
  cases rest with
  | nil =>
    simp only [pySplit, List.cons.injEq] at h
    exact Or.inr ⟨[], h.1.symm⟩
  | cons e r =>
    by_cases hde : d = '\n' ∧ e = '\n'
    · simp only [pySplit, if_pos hde, List.cons.injEq] at h
      exact Or.inl h.1.symm
    · simp only [pySplit, if_neg hde] at h
      cases hx : pySplit (e :: r) with
      | nil => exact absurd hx (pySplit_ne_nil _)
      | cons q qs =>
        rw [hx] at h
        simp only [List.cons.injEq] at h
        exact Or.inr ⟨q, h.1.symm⟩

/-- No part produced by the split contains the separator. -/
theorem containsSep_parts_mem (l : List Char) :
    ∀ p ∈ pySplit l, containsSep p = false := by
  induction l using pySplit.induct with
  | case1 => simp [pySplit, containsSep]
  | case2 c => simp [pySplit, containsSep]
  | case3 c d rest hcd ih =>
    simp only [pySplit, if_pos hcd]
    intro p hp
    rcases List.mem_cons.mp hp with h | h
    · subst h; rfl
    · exact ih p h
  | case4 c d rest hcd heq ih => exact absurd heq (pySplit_ne_nil _)
  | case5 c d rest hcd p ps heq ih =>
    rw [heq] at ih
    simp only [pySplit, if_neg hcd, heq]
    intro q hq
    rcases List.mem_cons.mp hq with h | h
    · subst h
      have hp : containsSep p = false := ih p (by simp)
      rcases pySplit_head d rest p ps heq with h0 | ⟨t, ht⟩
      · subst h0; rfl
      · subst ht
        simp only [containsSep, Bool.or_eq_false_iff,
          Bool.and_eq_false_iff, decide_eq_false_iff_not]
        refine ⟨?_, hp⟩
        by_cases h1 : c = '\n'
        · right
          intro h2
          exact hcd ⟨h1, h2⟩
        · left; exact h1
    · exact ih q (by simp [h])

/-- Joining after appending a final part appends it after a separator. -/
theorem joinSep_concat (ps : List (List Char)) (p : List Char)
    (h : ps ≠ []) :
    joinSep (ps ++ [p]) = joinSep ps ++ '\n' :: '\n' :: p := by
  induction ps with
  | nil => exact absurd rfl h
  | cons q qs ih =>
    cases qs with
    | nil => rfl
    | cons r rs =>
      have e : joinSep ((q :: r :: rs) ++ [p])
          = q ++ '\n' :: '\n' :: joinSep ((r :: rs) ++ [p]) := rfl
      rw [e, ih (by simp)]
      simp [joinSep, List.append_assoc]

/-- C6 counterexample: with the accumulated text `"a\n\n\nb"` processing
fires (manual trigger) with a paragraph break present, and the code splits
into prefix `"a"` and kept suffix `"\nb"` — but the last occurrence of
`"\n\n"` in `"a\n\n\nb"` starts at index 2, so splitting at the last
`"\n\n"` would give prefix `"a\n"` and suffix `"b"`.  Python `split`
scans for non-overlapping occurrences from the left, which differs from
the claimed last-occurrence split when occurrences overlap. -/
theorem c6_counterexample :
    shouldProcess ['a', '\n', '\n', '\n', 'b'] false false false true = true
    ∧ containsSep ['a', '\n', '\n', '\n', 'b'] = true
    ∧ aiSplit ['a', '\n', '\n', '\n', 'b'] = (['a'], ['\n', 'b'])
    ∧ lastSplit ['a', '\n', '\n', '\n', 'b'] = (['a', '\n'], ['b'])
    ∧ aiSplit ['a', '\n', '\n', '\n', 'b']
        ≠ lastSplit ['a', '\n', '\n', '\n', 'b'] := by
  refine ⟨rfl, rfl, rfl, rfl, ?_⟩
  decide

/-- C6 amended: the paragraph-break trigger fires exactly when the
accumulated text contains `"\n\n"` and is at least 150 characters long;
and whenever a paragraph break is present the shipped prefix and the kept
suffix reassemble the accumulated text around one `"\n\n"` with the
suffix containing no further (leftmost-scan) occurrence — the split is
Python `str.split` on non-overlapping occurrences, which coincides with a
split at the last occurrence unless occurrences of `"\n\n"` overlap. -/
theorem c6_trigger_and_split (acc : List Char) :
    (paragraphTrigger acc = true
      ↔ (containsSep acc = true ∧ 150 ≤ acc.length))
    ∧ (containsSep acc = true →
        acc = (aiSplit acc).1 ++ '\n' :: '\n' :: (aiSplit acc).2
        ∧ containsSep (aiSplit acc).2 = false) := by
  constructor
  · unfold paragraphTrigger
    constructor
    · intro h
      simp only [Bool.and_eq_true, Bool.not_eq_true', decide_eq_true_eq] at h
      exact ⟨h.2.2, h.2.1⟩
    · intro ⟨h1, h2⟩
      have hne : acc ≠ [] := by
        intro h0
        rw [h0] at h2
        simp at h2
      simp only [Bool.and_eq_true, Bool.not_eq_true', decide_eq_true_eq]
      exact ⟨by simpa using hne, h2, h1⟩
  · intro hc
    have hlen : 2 ≤ (pySplit acc).length := (containsSep_parts acc).mp hc
    have hne : pySplit acc ≠ [] := pySplit_ne_nil acc
    have hdne : (pySplit acc).dropLast ≠ [] := by
      intro h0
      have := congrArg List.length h0
      rw [List.length_dropLast] at this
      simp at this
      omega
    have hdecomp : (pySplit acc).dropLast ++ [(pySplit acc).getLast hne]
        = pySplit acc := List.dropLast_append_getLast hne
    have hgld : (pySplit acc).getLastD [] = (pySplit acc).getLast hne := by
      rw [List.getLastD_eq_getLast?, List.getLast?_eq_getLast _ hne]
      rfl
    have hsplit : aiSplit acc
        = (joinSep (pySplit acc).dropLast, (pySplit acc).getLastD []) := by
      simp [aiSplit, hc]
    constructor
    · rw [hsplit]
      show acc = joinSep (pySplit acc).dropLast
          ++ '\n' :: '\n' :: (pySplit acc).getLastD []
      rw [hgld, ← joinSep_concat _ _ hdne, hdecomp, joinSep_pySplit]
    · rw [hsplit]
      show containsSep ((pySplit acc).getLastD []) = false
      rw [hgld]
      exact containsSep_parts_mem acc _ (List.getLast_mem hne)

/-- C6 witness: the amended split property at a concrete accumulated text
containing one paragraph break. -/
theorem c6_witness :
    ['h', 'i', '\n', '\n', 'y', 'o']
      = (aiSplit ['h', 'i', '\n', '\n', 'y', 'o']).1
          ++ '\n' :: '\n' :: (aiSplit ['h', 'i', '\n', '\n', 'y', 'o']).2
    ∧ containsSep (aiSplit ['h', 'i', '\n', '\n', 'y', 'o']).2 = false :=
  (c6_trigger_and_split ['h', 'i', '\n', '\n', 'y', 'o']).2 (by decide)

/-! ## C8: engine supervisor shutdown and sentinel exactness

Source: `src/src/whispering/core/engine.py` `STTEngine._run`,
`_record_task`, `_transc_task`, `_transl_task` (lines 95-138).  Each task
is modelled by the sequence of items it posts to its outbound queue(s);
outcomes of `read()` and the per-item service calls are oracles (`Except`:
`error` is a raised exception caught by the task's `except`, after which
the `finally` posts the sentinel).  The queues are single-producer
single-consumer FIFOs, so a consumer task receives exactly the trace its
producer posted. -/

/-- A posted trace holds exactly one sentinel, at its very end (so the
sentinel comes after every real item). -/
def sentinelExact (t : List (Option α)) : Prop :=
  t.countP (fun x => x.isNone) = 1 ∧ t.getLast? = some none

/-- `getLast?` of a cons with a non-empty tail is the tail's. -/
theorem getLast?_cons_of_ne_nil (x : α) (l : List α) (h : l ≠ []) :
    (x :: l).getLast? = l.getLast? := by
  cases l with
  | nil => exact absurd rfl h
  | cons y ys => simp [List.getLast?_cons_cons]

/-- `_record_task`: while the running flag holds, post each `read()`
result; on a raised read error stop; in all cases the `finally` posts the
sentinel once.  `reads` lists the read outcomes until the flag is observed
false (an empty list: the flag was already false). -/
def recordTrace : List (Except Unit δ) → List (Option δ)
  | [] => [none]
  | .ok d :: rest => some d :: recordTrace rest
  | .error _ :: _ => [none]

/-- `_transc_task` / `_transl_task`: pop items until the sentinel (the
queue item types are always truthy Python objects, so only `None` stops
the loop), apply the service call and post its result; on a raised service
error stop; the `finally` posts the sentinel once.  `_transc_task` posts
this same trace to both of its outbound queues.  An input list without a
sentinel leaves the worker blocked on `get` forever (empty trace so far,
nothing more posted). -/
def workerTrace (upd : δ → Except Unit π) : List (Option δ) → List (Option π)
  | [] => []
  | none :: _ => [none]
  | some d :: rest =>
    match upd d with
    | .ok p => some p :: workerTrace upd rest
    | .error _ => [none]

/-- The observable traces of one engine run and the number of
`on_stopped` invocations made by `_run`. -/
structure EngineTraces (δ π τ : Type) where
  recordQ : List (Option δ)
  transc2translQ : List (Option π)
  transcResQ : List (Option π)
  translResQ : List (Option τ)
  stoppedCalls : ℕ

/-- `STTEngine._run`: start the three workers, join all three, then call
`on_stopped()` once.  The consumer ends of the two internal queues carry
exactly the traces their producers posted. -/
def engineRun (reads : List (Except Unit δ)) (upd1 : δ → Except Unit π)
    (upd2 : π → Except Unit τ) : EngineTraces δ π τ :=
  let recQ := recordTrace reads
  let tsQ := workerTrace upd1 recQ
  { recordQ := recQ
    transc2translQ := tsQ
    transcResQ := tsQ
    translResQ := workerTrace upd2 tsQ
    stoppedCalls := 1 }

/-- The capture trace always ends in exactly one sentinel. -/
theorem recordTrace_sentinel (reads : List (Except Unit δ)) :
    sentinelExact (recordTrace reads) := by
  induction reads with
  | nil => exact ⟨rfl, rfl⟩
  | cons r rest ih =>
    cases r with
    | ok d =>
      obtain ⟨h1, h2⟩ := ih
      have hne : recordTrace rest ≠ [] := by
        intro h0
        rw [h0] at h2
        simp at h2
      refine ⟨?_, ?_⟩
      · show List.countP (fun x => x.isNone) (some d :: recordTrace rest) = 1
        simpa [List.countP_cons] using h1
      · show (some d :: recordTrace rest).getLast? = some none
        rw [getLast?_cons_of_ne_nil _ _ hne]
        exact h2
    | error e => exact ⟨rfl, rfl⟩

/-- A trace whose last element is the sentinel contains the sentinel. -/
theorem none_mem_of_getLast? (t : List (Option δ))
    (h : t.getLast? = some none) : none ∈ t := by
  induction t with
  | nil => simp at h
  | cons x rest ih =>
    cases hx : rest with
    | nil =>
      rw [hx] at h
      simp only [List.getLast?_singleton, Option.some.injEq] at h
      simp [h]
    | cons y ys =>
      rw [hx] at h ih
      rw [List.getLast?_cons_cons] at h
      exact List.mem_cons_of_mem x (ih h)

/-- A worker consuming a trace that contains a sentinel posts exactly one
sentinel, at the end, whatever the service outcomes. -/
theorem workerTrace_sentinel (upd : δ → Except Unit π)
    (ins : List (Option δ)) (h : none ∈ ins) :
    sentinelExact (workerTrace upd ins) := by
  induction ins with
  | nil => simp at h
  | cons x rest ih =>
    cases x with
    | none => exact ⟨rfl, rfl⟩
    | some d =>
      have hrest : none ∈ rest := by
        rcases List.mem_cons.mp h with h0 | h0
        · exact absurd h0.symm (Option.some_ne_none d)
        · exact h0
      obtain ⟨h1, h2⟩ := ih hrest
      cases hu : upd d with
      | ok p =>
        have e1 : workerTrace upd (some d :: rest)
            = some p :: workerTrace upd rest := by
          simp [workerTrace, hu]
        have hne : workerTrace upd rest ≠ [] := by
          intro h0
          rw [h0] at h2
          simp at h2
        rw [e1]
        refine ⟨?_, ?_⟩
        · simpa [List.countP_cons] using h1
        · rw [getLast?_cons_of_ne_nil _ _ hne]
          exact h2
      | error e =>
        have e1 : workerTrace upd (some d :: rest) = [none] := by
          simp [workerTrace, hu]
        rw [e1]
        exact ⟨rfl, rfl⟩

/-- C8: for every engine run — whatever the read outcomes and however the
transcription and translation service calls succeed or raise — every
producer posts the sentinel to each of its outbound queues exactly once
and after every real item it posted, and the supervisor invokes
`on_stopped` exactly once, after joining the three workers. -/
theorem c8_supervisor_sentinels (reads : List (Except Unit δ))
    (upd1 : δ → Except Unit π) (upd2 : π → Except Unit τ) :
    sentinelExact (engineRun reads upd1 upd2).recordQ
    ∧ sentinelExact (engineRun reads upd1 upd2).transc2translQ
    ∧ sentinelExact (engineRun reads upd1 upd2).transcResQ
    ∧ sentinelExact (engineRun reads upd1 upd2).translResQ
    ∧ (engineRun reads upd1 upd2).stoppedCalls = 1 := by
  have hrec := recordTrace_sentinel (δ := δ) reads
  have hmem1 : none ∈ recordTrace reads := none_mem_of_getLast? _ hrec.2
  have hts := workerTrace_sentinel upd1 (recordTrace reads) hmem1
  have hmem2 : none ∈ workerTrace upd1 (recordTrace reads) :=
    none_mem_of_getLast? _ hts.2
  have htl := workerTrace_sentinel upd2 _ hmem2
  exact ⟨hrec, hts, hts, htl, rfl⟩

/-! ## C10: the core transcription loop exits on any falsy frame

Source: `src/core.py` `ts_proc` lines 364-396 (and
`src/src/core_parts/processing.py` lines 124-156): the loop is
`while frame := frame_queue.get():` over byte-string frames, so it exits
on the first falsy item — the `None` sentinel or an empty frame — and the
stage then posts `None` once to each of its two outbound queues.  `emit`
abstracts the oracle-dependent pair computed for a frame. -/

/-- A queue item on which `while frame := get():` stops: the sentinel or
an empty byte string. -/
def falsyFrame (x : Option (List ℕ)) : Bool :=
  match x with
  | none => true
  | some f => f.isEmpty

/-- The trace `ts_proc` posts to each of its two outbound queues while
consuming the frame queue. -/
def tsConsume (emit : List ℕ → Pair) : List (Option (List ℕ)) → List (Option Pair)
  | [] => []
  | none :: _ => [none]
  | some f :: rest =>
    if f.isEmpty then [none]
    else some (emit f) :: tsConsume emit rest

/-- C10: the consumption loop of the transcription worker exits on the
first falsy item — a zero-length frame terminates the stage exactly as the
`None` sentinel does — and whenever the frame stream contains a falsy
item, the trace posted to each outbound queue contains exactly one
sentinel, at the end, after every real item. -/
theorem c10_falsy_frame_terminates (emit : List ℕ → Pair) :
    (∀ rest : List (Option (List ℕ)),
        tsConsume emit (some [] :: rest) = [none]
        ∧ tsConsume emit (none :: rest) = [none]
        ∧ tsConsume emit (some [] :: rest) = tsConsume emit (none :: rest))
    ∧ (∀ frames : List (Option (List ℕ)),
        (∃ x ∈ frames, falsyFrame x = true) →
        sentinelExact (tsConsume emit frames)) := by
  constructor
  · intro rest
    exact ⟨rfl, rfl, rfl⟩
  · intro frames
    induction frames with
    | nil =>
      intro h
      simp at h
    | cons x rest ih =>
      intro h
      cases x with
      | none => exact ⟨rfl, rfl⟩
      | some f =>
        cases hf : f.isEmpty with
        | true => exact ⟨by simp [tsConsume, hf], by simp [tsConsume, hf]⟩
        | false =>
          have hrest : ∃ x ∈ rest, falsyFrame x = true := by
            rcases h with ⟨y, hy, hfy⟩
            rcases List.mem_cons.mp hy with h0 | h0
            · subst h0
              rw [falsyFrame] at hfy
              rw [hfy] at hf
              simp at hf
            · exact ⟨y, h0, hfy⟩
          obtain ⟨h1, h2⟩ := ih hrest
          have e1 : tsConsume emit (some f :: rest)
              = some (emit f) :: tsConsume emit rest := by
            simp [tsConsume, hf]
          have hne : tsConsume emit rest ≠ [] := by
            intro h0
            rw [h0] at h2
            simp at h2
          rw [e1]
          refine ⟨?_, ?_⟩
          · simpa [List.countP_cons] using h1
          · rw [getLast?_cons_of_ne_nil _ _ hne]
            exact h2

/-- C10 witness: a stream whose third item is a zero-length frame. -/
theorem c10_witness :
    sentinelExact (tsConsume (fun _f => ⟨"x", "y"⟩)
      [some [1, 2], some [3], some [], some [4]]) :=
  (c10_falsy_frame_terminates (fun _f => ⟨"x", "y"⟩)).2
    [some [1, 2], some [3], some [], some [4]]
    ⟨some [], by simp, rfl⟩

/-! ## C9: the adaptive paragraph detector

Source: `src/core.py` `ParagraphDetector` lines 23-145 (identical to
`src/src/core_parts/paragraph_detector.py`).  Durations are rational
seconds; `sq` abstracts `math.sqrt` (which the source applies to IEEE
floats), so every statement below holds for an arbitrary square-root
function. -/

/-- `ParagraphDetector.__init__` parameters. -/
structure PDConfig where
  threshold_std : ℚ
  min_pause : ℚ
  max_chars : ℕ
  max_words : ℕ
  window_size : ℕ
  warmup_count : ℕ
  warmup_threshold : ℚ
deriving Repr

/-- Mutable state of the detector. -/
structure PDState where
  pause_history : List ℚ
  current_para_chars : ℕ
  current_para_words : ℕ
  last_absolute_end : Option ℚ
deriving Repr

/-- Count of maximal non-whitespace runs; the Bool flag tells whether the
previous character was part of a word. -/
def countWordsAux : Bool → List Char → ℕ
  | _, [] => 0
  | inWord, ch :: rest =>
    if ch.isWhitespace then countWordsAux false rest
    else (if inWord then 0 else 1) + countWordsAux true rest

/-- Python `len(text.split())`: the number of whitespace-separated
words. -/
def wordCount (s : String) : ℕ :=
  countWordsAux false s.data

/-- `_add_pause`: record a positive duration, then discard the oldest
entry if the history exceeds `window_size`. -/
def addPause (c : PDConfig) (h : List ℚ) (d : ℚ) : List ℚ :=
  if 0 < d then
    let h2 := h ++ [d]
    if c.window_size < h2.length then h2.drop 1 else h2
  else h

/-- Mean of the pause history (`sum / n`). -/
def histMean (h : List ℚ) : ℚ := h.sum / h.length

/-- Population variance of the pause history. -/
def histVar (h : List ℚ) : ℚ :=
  ((h.map fun p => (p - histMean h) ^ 2).sum) / h.length

/-- The source's `std`: `sqrt(variance) if variance > 0 else 0`. -/
def histStd (sq : ℚ → ℚ) (h : List ℚ) : ℚ :=
  if 0 < histVar h then sq (histVar h) else 0

/-- `_get_adaptive_threshold`. -/
def adaptiveThreshold (sq : ℚ → ℚ) (c : PDConfig) (h : List ℚ) : ℚ :=
  if h.length < c.warmup_count then c.warmup_threshold
  else max (histMean h + c.threshold_std * histStd sq h) c.min_pause

/-- The per-segment body of `process_segments`: check the hard caps, then
(when not already breaking and a previous end exists) record the pause and
compare it with the floor and the adaptive threshold; emit `"\n\n"` before
the text on a break and update counters and the last absolute end. -/
def processSegment (sq : ℚ → ℚ) (c : PDConfig) (st : PDState) (offset : ℚ)
    (seg : Segment) : PDState × String :=
  let text := seg.text
  let absStart := seg.start + offset
  let absEnd := seg.stop + offset
  let capBreak := 0 < st.current_para_chars ∧
    (c.max_chars < st.current_para_chars + text.length
      ∨ c.max_words < st.current_para_words + wordCount text)
  let pr : List ℚ × Bool :=
    if capBreak then (st.pause_history, false)
    else
      match st.last_absolute_end with
      | some e =>
        let pause := absStart - e
        if 0 < pause then
          let h2 := addPause c st.pause_history pause
          (h2, decide (c.min_pause ≤ pause
            ∧ adaptiveThreshold sq c h2 < pause))
        else (st.pause_history, false)
      | none => (st.pause_history, false)
  let brk : Bool := decide capBreak || pr.2
  ({ pause_history := pr.1
     current_para_chars :=
       (if brk then 0 else st.current_para_chars) + text.length
     current_para_words :=
       (if brk then 0 else st.current_para_words) + wordCount text
     last_absolute_end := some absEnd },
   (if brk then "\n\n" else "") ++ text)

/-- `process_segments`: fold the per-segment body over a batch,
concatenating the emitted text. -/
def processSegments (sq : ℚ → ℚ) (c : PDConfig) (st : PDState) (offset : ℚ)
    (segs : List Segment) : PDState × String :=
  segs.foldl
    (fun acc seg =>
      let r := processSegment sq c acc.1 offset seg
      (r.1, acc.2 ++ r.2))
    (st, "")

/-- C9: for every detector configuration and square-root function, the
break threshold equals the fixed `warmup_threshold` while the history
holds fewer than `warmup_count` entries and equals
`max(mean + threshold_std · stdev, min_pause)` from `warmup_count`
entries on; on a segment with a previous absolute end and no hard-cap
break, the detector breaks exactly when the pause reaches `min_pause` and
strictly exceeds the threshold of the history with the pause recorded;
and the history never exceeds `window_size` entries, the oldest being
discarded first. -/
theorem c9_adaptive_threshold (sq : ℚ → ℚ) (c : PDConfig) :
    (∀ h : List ℚ, h.length < c.warmup_count →
        adaptiveThreshold sq c h = c.warmup_threshold)
    ∧ (∀ h : List ℚ, c.warmup_count ≤ h.length →
        adaptiveThreshold sq c h
          = max (histMean h + c.threshold_std * histStd sq h) c.min_pause)
    ∧ (∀ (st : PDState) (offset e : ℚ) (seg : Segment),
        st.last_absolute_end = some e →
        ¬(0 < st.current_para_chars ∧
          (c.max_chars < st.current_para_chars + seg.text.length
            ∨ c.max_words < st.current_para_words + wordCount seg.text)) →
        0 < c.min_pause →
        (processSegment sq c st offset seg).2
            = (if c.min_pause ≤ seg.start + offset - e
                  ∧ adaptiveThreshold sq c
                      (addPause c st.pause_history (seg.start + offset - e))
                    < seg.start + offset - e
               then "\n\n" ++ seg.text else seg.text)
          ∧ (processSegment sq c st offset seg).1.pause_history
              = addPause c st.pause_history (seg.start + offset - e))
    ∧ (∀ (h : List ℚ) (d : ℚ), h.length ≤ c.window_size →
        (addPause c h d).length ≤ c.window_size)
    ∧ (∀ (h : List ℚ) (d : ℚ), h.length = c.window_size → 0 < d →
        addPause c h d = (h ++ [d]).drop 1)
    ∧ (∀ (st : PDState) (offset : ℚ) (seg : Segment),
        st.pause_history.length ≤ c.window_size →
        (processSegment sq c st offset seg).1.pause_history.length
          ≤ c.window_size) := by
  have haddlen : ∀ (h : List ℚ) (d : ℚ), h.length ≤ c.window_size →
      (addPause c h d).length ≤ c.window_size := by
    intro h d hlen
    unfold addPause
    by_cases hd : 0 < d
    · rw [if_pos hd]
      by_cases hw : c.window_size < (h ++ [d]).length
      · rw [if_pos hw]
        simp only [List.length_drop, List.length_append,
          List.length_singleton]
        simp only [List.length_append, List.length_singleton] at hw
        omega
      · rw [if_neg hw]
        simp only [List.length_append, List.length_singleton] at hw ⊢
        omega
    · rw [if_neg hd]
      exact hlen
  refine ⟨?_, ?_, ?_, haddlen, ?_, ?_⟩
  · intro h hlen
    unfold adaptiveThreshold
    rw [if_pos hlen]
  · intro h hlen
    unfold adaptiveThreshold
    rw [if_neg (by omega)]
  · intro st offset e seg hlast hcap hmin
    simp only [processSegment, hlast, if_neg hcap]
    by_cases hpause : 0 < seg.start + offset - e
    · rw [if_pos hpause]
      constructor
      · simp only [decide_eq_false hcap, Bool.false_or]
        by_cases hb : c.min_pause ≤ seg.start + offset - e
            ∧ adaptiveThreshold sq c
                (addPause c st.pause_history (seg.start + offset - e))
              < seg.start + offset - e
        · rw [if_pos hb, decide_eq_true hb]
          simp
        · rw [if_neg hb, decide_eq_false hb]
          simp
      · simp
    · have hnb : ¬(c.min_pause ≤ seg.start + offset - e
          ∧ adaptiveThreshold sq c
              (addPause c st.pause_history (seg.start + offset - e))
            < seg.start + offset - e) := by
        intro hb
        exact hpause (lt_of_lt_of_le hmin hb.1)
      have hadd : addPause c st.pause_history (seg.start + offset - e)
          = st.pause_history := by
        unfold addPause
        rw [if_neg hpause]
      rw [if_neg hpause, if_neg hnb]
      constructor
      · simp [decide_eq_false hcap]
      · simp [hadd]
  · intro h d hlen hd
    unfold addPause
    rw [if_pos hd, if_pos (by simp [hlen])]
  · intro st offset seg hlen
    simp only [processSegment]
    by_cases hcap : (0 < st.current_para_chars ∧
        (c.max_chars < st.current_para_chars + seg.text.length
          ∨ c.max_words < st.current_para_words + wordCount seg.text))
    · rw [if_pos hcap]
      simpa using hlen
    · rw [if_neg hcap]
      cases hlast : st.last_absolute_end with
      | none => simpa using hlen
      | some e =>
        dsimp only
        by_cases hpause : 0 < seg.start + offset - e
        · rw [if_pos hpause]
          simpa using haddlen _ _ hlen
        · rw [if_neg hpause]
          simpa using hlen

/-- C9 witness: the pause-path break rule applied at a concrete state and
segment — a 3-second pause against warmup threshold 2 forces a break. -/
theorem c9_witness :
    (processSegment (fun q => q)
        ⟨3/2, 4/5, 500, 100, 30, 5, 2⟩
        ⟨[], 2, 1, some 1⟩ 0 ⟨4, 5, "D."⟩).2
      = (if (4/5 : ℚ) ≤ 4 + 0 - 1
            ∧ adaptiveThreshold (fun q => q) ⟨3/2, 4/5, 500, 100, 30, 5, 2⟩
                (addPause ⟨3/2, 4/5, 500, 100, 30, 5, 2⟩ [] (4 + 0 - 1))
              < 4 + 0 - 1
         then "\n\n" ++ "D." else "D.") :=
  ((c9_adaptive_threshold (fun q => q) ⟨3/2, 4/5, 500, 100, 30, 5, 2⟩).2.2.1
    ⟨[], 2, 1, some 1⟩ 0 1 ⟨4, 5, "D."⟩ rfl
    (by decide)
    (by norm_num)).1

end Whispering
